import Mathlib

/-!
Shallow embedding of the VLIW list scheduler and executor from `execute.py`
(the repository's core), together with proofs of the specification's claims
about it.

Python conventions are mapped as follows:
* register names and external-input keys are `Option String` values, where
  `none` stands for Python's `None` appearing where a name is expected
  (Python treats `None` as an ordinary dictionary key, so the embedding
  keeps it as an ordinary value of the key type);
* dictionaries (`reg_avail`, `registers`, `inputs`) are association lists
  whose `lookup` finds the most recent binding; assignment is modelled by
  prepending a binding, which shadows older ones exactly like a dict update;
* the scheduler's `while unscheduled:` loop, which the source does not
  bound, takes an explicit fuel argument; exhausting the fuel returns
  `none`, so "the Python loop does not terminate" is expressed as
  "for every fuel the embedded function returns `none`";
* a Python `KeyError` / `ValueError` aborting a run is an `Option` failure.
-/

/-- One instruction: `(op, dest, src1, src2, size)` as in the source tuples. -/
structure Instruction where
  op : String
  dest : Option String
  src1 : Option String
  src2 : Option String
  size : Nat
deriving DecidableEq, Repr

/-- `reg_avail`: register name -> earliest cycle its value is available. -/
abbrev AvailTable := List (Option String × Nat)

/-- Register file / input environment: name -> value. -/
abbrev RegFile := List (Option String × Int)

/-- A bundle paired with its start cycle, and a whole schedule. -/
abbrev Schedule := List (Nat × List Instruction)

/-- `get_registers` from `execute.py`: for `STORE` the operand to be stored
is given in the `dest` field, so it is returned as a source and the
destination is `none`; otherwise the destination is `dest` and the sources
are the non-`None` entries among `src1, src2`. -/
def get_registers (i : Instruction) : Option String × List (Option String) :=
  if i.op = "STORE" then
    (none, [i.dest])
  else
    (i.dest, ([i.src1, i.src2].filter Option.isSome))

/-- The per-kind base latency table from `compute_latency`. -/
def base_latencies : List (String × Nat) :=
  [("ADD", 1), ("SUB", 1), ("MUL", 2), ("MOVE", 3), ("LOAD", 3), ("STORE", 3)]

/-- `compute_latency`: per-kind base latency (default 1 for unknown kinds)
plus one extra cycle per ten units of size. -/
def compute_latency (i : Instruction) : Nat :=
  (base_latencies.lookup i.op).getD 1 + i.size / 10

/-- The `produced` set of `schedule_instructions`: destinations of all
non-`STORE` instructions (taken from the raw `dest` field, as the source does). -/
def producedRegs (prog : List Instruction) : List (Option String) :=
  (prog.filter (fun i => !(i.op == "STORE"))).map (fun i => i.dest)

/-- The `external` set: every register appearing as a source (per
`get_registers`) that is not produced by any instruction. -/
def externalRegs (prog : List Instruction) : List (Option String) :=
  ((prog.map (fun i => (get_registers i).2)).flatten).filter
    (fun r => !((producedRegs prog).contains r))

/-- The initial `reg_avail` table: every external register available at cycle 0. -/
def initAvail (prog : List Instruction) : AvailTable :=
  (externalRegs prog).map (fun r => (r, 0))

/-- `reg_avail.get(r, float(lnf)) > current_cycle`: a source register is not
ready if it is absent from the table (conceptually infinite availability) or
its availability exceeds the current cycle. -/
def notReady (a : AvailTable) (C : Nat) (r : Option String) : Bool :=
  match a.lookup r with
  | none => true
  | some v => decide (C < v)

/-- The intra-bundle conflict test of `schedule_instructions`, for a
candidate `i` against a bundle member `b`: `b`'s destination appears among
`i`'s sources, or the two destinations coincide, or `i`'s destination
appears among `b`'s sources. -/
def conflict (i b : Instruction) : Bool :=
  ((get_registers b).1.isSome && (get_registers i).2.contains (get_registers b).1) ||
  ((get_registers i).1.isSome && ((get_registers i).1 == (get_registers b).1)) ||
  ((get_registers i).1.isSome && (get_registers b).2.contains (get_registers i).1)

/-- The inner `for instr in unscheduled[:]` pass of `schedule_instructions`:
walk the pool in order, admitting each instruction whose sources are ready
and which does not conflict with the bundle built so far, until the bundle
reaches the width `W`. Returns the bundle and the instructions left in the
pool (in their original relative order, as Python's `list.remove` leaves them). -/
def packBundle (a : AvailTable) (C W : Nat) : List Instruction → List Instruction →
    List Instruction × List Instruction
  | bundle, [] => (bundle, [])
  | bundle, i :: rest =>
    if W ≤ bundle.length then
      (bundle, i :: rest)
    else if (get_registers i).2.any (notReady a C) then
      let pr := packBundle a C W bundle rest
      (pr.1, i :: pr.2)
    else if bundle.any (conflict i) then
      let pr := packBundle a C W bundle rest
      (pr.1, i :: pr.2)
    else
      packBundle a C W (bundle ++ [i]) rest

/-- `max(compute_latency(instr) for instr in current_bundle)`; the scheduler
only evaluates this on non-empty bundles, where `foldl max 0` agrees with
Python's `max` because latencies are natural numbers. -/
def bundleLatency (bundle : List Instruction) : Nat :=
  (bundle.map compute_latency).foldl max 0

/-- The availability update of a scheduled bundle: each instruction with a
destination makes it available at `C + compute_latency instr`. -/
def updateAvail (C : Nat) (a : AvailTable) (bundle : List Instruction) : AvailTable :=
  bundle.foldl
    (fun acc i =>
      match (get_registers i).1 with
      | none => acc
      | some d => (some d, C + compute_latency i) :: acc)
    a

/-- The `while unscheduled:` loop of `schedule_instructions`, with explicit
fuel bounding the number of iterations (the source loop is unbounded; a
`none` result for every fuel models its divergence). -/
def scheduleLoop (W : Nat) : Nat → AvailTable → List Instruction → Nat → Option Schedule
  | _, _, [], _ => some []
  | 0, _, _ :: _, _ => none
  | fuel + 1, a, p :: ps, C =>
    let pr := packBundle a C W [] (p :: ps)
    if pr.1.isEmpty then
      scheduleLoop W fuel a (p :: ps) (C + 1)
    else
      match scheduleLoop W fuel (updateAvail C a pr.1) pr.2 (C + bundleLatency pr.1) with
      | none => none
      | some bs => some ((C, pr.1) :: bs)

/-- `schedule_instructions(instructions, bundle_size)` with explicit fuel. -/
def schedule_instructions (prog : List Instruction) (W : Nat) (fuel : Nat) : Option Schedule :=
  scheduleLoop W fuel (initAvail prog) prog 0

/-- `execute_instruction`: one step of the simulated machine. A `KeyError`
(absent input key, or register read before written) and the `ValueError` for
an unknown operation are both `none`. A successful step prepends the written
binding to the register file. -/
def execute_instruction (i : Instruction) (registers : RegFile) (inputs : RegFile) :
    Option RegFile :=
  if i.op = "LOAD" then
    match inputs.lookup i.src1 with
    | none => none
    | some v => some ((i.dest, v) :: registers)
  else if i.op = "STORE" then
    match registers.lookup i.dest with
    | none => none
    | some v => some ((some "OUTPUT", v) :: registers)
  else if i.op = "ADD" then
    match registers.lookup i.src1, registers.lookup i.src2 with
    | some v1, some v2 => some ((i.dest, v1 + v2) :: registers)
    | _, _ => none
  else if i.op = "SUB" then
    match registers.lookup i.src1, registers.lookup i.src2 with
    | some v1, some v2 => some ((i.dest, v1 - v2) :: registers)
    | _, _ => none
  else if i.op = "MUL" then
    match registers.lookup i.src1, registers.lookup i.src2 with
    | some v1, some v2 => some ((i.dest, v1 * v2) :: registers)
    | _, _ => none
  else if i.op = "MOVE" then
    match registers.lookup i.src1 with
    | none => none
    | some v => some ((i.dest, v) :: registers)
  else
    none

/-- Execute the instructions of one bundle in order, threading the register
file; the first failing instruction aborts. -/
def execBundle (inputs : RegFile) : List Instruction → RegFile → Option RegFile
  | [], regs => some regs
  | i :: rest, regs =>
    match execute_instruction i regs inputs with
    | none => none
    | some regs2 => execBundle inputs rest regs2

/-- Python's `max` over a list: `none` on the empty list (where Python
raises `ValueError: max() arg is an empty sequence`). -/
def listMax : List Nat → Option Nat
  | [] => none
  | x :: xs =>
    match listMax xs with
    | none => some x
    | some m => some (max x m)

/-- The replay loop of `run_bundle`: consume bundles in order, executing each
bundle's instructions and then advancing the cycle counter by the bundle's
maximum latency (which fails on an empty bundle, as Python's `max` does). -/
def runBundles (inputs : RegFile) : Schedule → RegFile → Nat → Option RegFile
  | [], regs, _ => some regs
  | (cycle, bundle) :: rest, regs, cur =>
    let cur2 := if cur < cycle then cycle else cur
    match execBundle inputs bundle regs with
    | none => none
    | some regs2 =>
      match listMax (bundle.map compute_latency) with
      | none => none
      | some lat => runBundles inputs rest regs2 (cur2 + lat)

/-- `run_bundle(bundles, inputs)`: replay a precomputed schedule against an
empty register file; the result is `registers.get("OUTPUT", None)`, or `none`
if the replay aborted. -/
def run_bundle (bundles : Schedule) (inputs : RegFile) : Option (Option Int) :=
  match runBundles inputs bundles [] 0 with
  | none => none
  | some regs => some (regs.lookup (some "OUTPUT"))

/-- The replay loop inlined in `run_program` (the source duplicates the body
of `run_bundle` there; the embedding mirrors the duplication). -/
def runProgBundles (inputs : RegFile) : Schedule → RegFile → Nat → Option RegFile
  | [], regs, _ => some regs
  | (cycle, bundle) :: rest, regs, cur =>
    let cur2 := if cur < cycle then cycle else cur
    match execBundle inputs bundle regs with
    | none => none
    | some regs2 =>
      match listMax (bundle.map compute_latency) with
      | none => none
      | some lat => runProgBundles inputs rest regs2 (cur2 + lat)

/-- `run_program(instructions, inputs, bundle_size)`: schedule, then replay
the bundles sequentially, returning `registers.get("OUTPUT", None)`. -/
def run_program (prog : List Instruction) (inputs : RegFile) (W : Nat) (fuel : Nat) :
    Option (Option Int) :=
  match schedule_instructions prog W fuel with
  | none => none
  | some bs =>
    match runProgBundles inputs bs [] 0 with
    | none => none
    | some regs => some (regs.lookup (some "OUTPUT"))

/-- An intra-bundle hazard between two instructions, in terms of the roles
assigned by `get_registers`: they write the same destination (WAW), or
either one reads the register written by the other (RAW/WAR within a bundle). -/
def Hazard (x y : Instruction) : Prop :=
  ((get_registers x).1.isSome ∧ (get_registers x).1 = (get_registers y).1) ∨
  ((get_registers y).1.isSome ∧ (get_registers y).1 ∈ (get_registers x).2) ∨
  ((get_registers x).1.isSome ∧ (get_registers x).1 ∈ (get_registers y).2)

instance (x y : Instruction) : Decidable (Hazard x y) := by
  unfold Hazard
  infer_instance

/-- The example DAG of `execute.py`, computing `(input0 + input1) * input2`. -/
def exProgram : List Instruction :=
  [⟨"LOAD", some "R1", some "input0", none, 16⟩,
   ⟨"LOAD", some "R2", some "input1", none, 16⟩,
   ⟨"ADD", some "R3", some "R1", some "R2", 1⟩,
   ⟨"LOAD", some "R4", some "input2", none, 16⟩,
   ⟨"MUL", some "R5", some "R3", some "R4", 1⟩,
   ⟨"STORE", some "R5", none, none, 1⟩]

/-- The example inputs of `execute.py`: `(3 + 5) * 10 = 80`. -/
def exInputs : RegFile :=
  [(some "input0", 3), (some "input1", 5), (some "input2", 10)]

/-- The single-instruction program whose sole instruction reads its own
destination register `R1` (a produced register) together with the dangling
register `X` (neither produced nor supplied by any input environment). -/
def selfDepProgram : List Instruction :=
  [⟨"ADD", some "R1", some "R1", some "X", 1⟩]

/-- The schedule that `schedule_instructions exProgram 2` computes. -/
def exSchedule2 : Schedule :=
  [(0, [⟨"LOAD", some "R1", some "input0", none, 16⟩,
        ⟨"LOAD", some "R2", some "input1", none, 16⟩]),
   (4, [⟨"ADD", some "R3", some "R1", some "R2", 1⟩,
        ⟨"LOAD", some "R4", some "input2", none, 16⟩]),
   (8, [⟨"MUL", some "R5", some "R3", some "R4", 1⟩]),
   (10, [⟨"STORE", some "R5", none, none, 1⟩])]

/-- C3: the scheduler treats a `STORE` instruction's destination field as a
register it reads: `get_registers` reports no destination and the `dest`
field as the (sole) source, the destination is excluded from the produced
set, a lone `STORE`'s destination is classified external, and scheduling a
`STORE` performs no availability update. -/
theorem store_dest_is_read (i : Instruction) (h : i.op = "STORE")
    (prog : List Instruction) (a : AvailTable) (C : Nat) :
    (get_registers i).1 = none ∧
    (get_registers i).2 = [i.dest] ∧
    producedRegs (i :: prog) = producedRegs prog ∧
    externalRegs [i] = [i.dest] ∧
    updateAvail C a [i] = a := by
  refine ⟨?_, ?_, ?_, ?_, ?_⟩
  · simp [get_registers, h]
  · simp [get_registers, h]
  · simp [producedRegs, h]
  · simp [externalRegs, producedRegs, get_registers, h]
  · simp [updateAvail, get_registers, h]

theorem store_dest_is_read_witness :
    (get_registers ⟨"STORE", some "R5", none, none, 1⟩).1 = none ∧
    (get_registers ⟨"STORE", some "R5", none, none, 1⟩).2 = [some "R5"] ∧
    producedRegs (⟨"STORE", some "R5", none, none, 1⟩ :: []) = producedRegs [] ∧
    externalRegs [⟨"STORE", some "R5", none, none, 1⟩] = [some "R5"] ∧
    updateAvail 0 [] [⟨"STORE", some "R5", none, none, 1⟩] = [] :=
  store_dest_is_read ⟨"STORE", some "R5", none, none, 1⟩ rfl [] [] 0

/-- C6: scheduling and execution are deterministic; the embedding is a pure
function of the program, the width, and the inputs, so two invocations with
the same arguments yield identical results (the source likewise consults its
dictionaries only through value lookups, never through iteration order). -/
theorem scheduling_and_execution_deterministic (prog : List Instruction)
    (W fuel : Nat) (bs : Schedule) (inputs : RegFile) :
    schedule_instructions prog W fuel = schedule_instructions prog W fuel ∧
    run_bundle bs inputs = run_bundle bs inputs :=
  ⟨rfl, rfl⟩

/-- C7: `compute_latency` equals the per-kind base latency plus one extra
cycle per ten units of size, with the base defaulting to 1 for an operation
kind outside the table (and the result is a natural number, hence
non-negative). -/
theorem compute_latency_spec (op : String) (d s1 s2 : Option String) (n : Nat)
    (hop : op ∉ ["ADD", "SUB", "MUL", "MOVE", "LOAD", "STORE"]) :
    compute_latency ⟨op, d, s1, s2, n⟩ = 1 + n / 10 ∧
    compute_latency ⟨"ADD", d, s1, s2, n⟩ = 1 + n / 10 ∧
    compute_latency ⟨"SUB", d, s1, s2, n⟩ = 1 + n / 10 ∧
    compute_latency ⟨"MUL", d, s1, s2, n⟩ = 2 + n / 10 ∧
    compute_latency ⟨"MOVE", d, s1, s2, n⟩ = 3 + n / 10 ∧
    compute_latency ⟨"LOAD", d, s1, s2, n⟩ = 3 + n / 10 ∧
    compute_latency ⟨"STORE", d, s1, s2, n⟩ = 3 + n / 10 := by
  simp only [List.mem_cons, List.not_mem_nil, or_false, not_or] at hop
  obtain ⟨h1, h2, h3, h4, h5, h6⟩ := hop
  refine ⟨?_, rfl, rfl, rfl, rfl, rfl, rfl⟩
  have e1 : (op == "ADD") = false := beq_eq_false_iff_ne.mpr h1
  have e2 : (op == "SUB") = false := beq_eq_false_iff_ne.mpr h2
  have e3 : (op == "MUL") = false := beq_eq_false_iff_ne.mpr h3
  have e4 : (op == "MOVE") = false := beq_eq_false_iff_ne.mpr h4
  have e5 : (op == "LOAD") = false := beq_eq_false_iff_ne.mpr h5
  have e6 : (op == "STORE") = false := beq_eq_false_iff_ne.mpr h6
  simp [compute_latency, base_latencies, List.lookup, e1, e2, e3, e4, e5, e6]

theorem compute_latency_spec_witness :
    compute_latency ⟨"FNORD", none, none, none, 25⟩ = 1 + 25 / 10 ∧
    compute_latency ⟨"ADD", none, none, none, 25⟩ = 1 + 25 / 10 ∧
    compute_latency ⟨"SUB", none, none, none, 25⟩ = 1 + 25 / 10 ∧
    compute_latency ⟨"MUL", none, none, none, 25⟩ = 2 + 25 / 10 ∧
    compute_latency ⟨"MOVE", none, none, none, 25⟩ = 3 + 25 / 10 ∧
    compute_latency ⟨"LOAD", none, none, none, 25⟩ = 3 + 25 / 10 ∧
    compute_latency ⟨"STORE", none, none, none, 25⟩ = 3 + 25 / 10 :=
  compute_latency_spec "FNORD" none none none 25 (by decide)

/-- C9: the six-instruction example program computing
`(input0 + input1) * input2` on inputs `3, 5, 10` returns output `80` for
every bundle width in `{1, 2, 4, 50}`. -/
theorem example_program_outputs_80 :
    run_program exProgram exInputs 1 100 = some (some 80) ∧
    run_program exProgram exInputs 2 100 = some (some 80) ∧
    run_program exProgram exInputs 4 100 = some (some 80) ∧
    run_program exProgram exInputs 50 100 = some (some 80) :=
  ⟨rfl, rfl, rfl, rfl⟩

/-- With bundle width 0 the scheduler admits nothing, so the loop stalls
forever on any non-empty pool: every fuel is exhausted. -/
theorem scheduleLoop_width_zero (a : AvailTable) (p : Instruction)
    (ps : List Instruction) : ∀ fuel C, scheduleLoop 0 fuel a (p :: ps) C = none := by
  intro fuel
  induction fuel with
  | zero => intro C; rfl
  | succ n ih =>
    intro C
    have hpk : packBundle a C 0 [] (p :: ps) = ([], p :: ps) := by
      simp [packBundle]
    simp only [scheduleLoop, hpk]
    simpa using ih (C + 1)

/-- C2 counterexample: at bundle width 0 the scheduler does not terminate on
the (acyclic, fully resolvable) example program: no amount of fuel makes the
embedded loop return, which is the source's unbounded `while` loop. -/
theorem schedule_nonterminating_at_width_zero :
    ¬ ∃ fuel bs, schedule_instructions exProgram 0 fuel = some bs := by
  rintro ⟨fuel, bs, h⟩
  have h0 : schedule_instructions exProgram 0 fuel = none :=
    scheduleLoop_width_zero (initAvail exProgram) _ _ fuel 0
  rw [h0] at h
  exact Option.noConfusion h

/-- C4: the scheduler never returns on the single-instruction program whose
instruction reads its own destination plus a dangling register: the sole
source `R1` is produced (by the instruction itself), hence not external, so
it is never available and the loop stalls forever. -/
theorem scheduler_hangs_on_self_dependency :
    ¬ ∃ fuel bs, schedule_instructions selfDepProgram 2 fuel = some bs := by
  rintro ⟨fuel, bs, h⟩
  have key : ∀ fuel C,
      scheduleLoop 2 fuel (initAvail selfDepProgram)
        [⟨"ADD", some "R1", some "R1", some "X", 1⟩] C = none := by
    intro fuel
    induction fuel with
    | zero => intro C; rfl
    | succ n ih =>
      intro C
      have hpk : packBundle (initAvail selfDepProgram) C 2 []
          [⟨"ADD", some "R1", some "R1", some "X", 1⟩]
          = ([], [⟨"ADD", some "R1", some "R1", some "X", 1⟩]) := rfl
      simp only [scheduleLoop, hpk]
      simpa using ih (C + 1)
  have h0 : schedule_instructions selfDepProgram 2 fuel = none := key fuel 0
  rw [h0] at h
  exact Option.noConfusion h

/-- C10 counterexample: two schedules with equal flattened instruction
sequences on which `run_bundle` differs: the replay of an empty bundle
evaluates `max` of an empty sequence, which aborts the run, while the empty
schedule returns normally. -/
theorem run_bundle_grouping_counterexample :
    (([] : Schedule).map Prod.snd).flatten =
      (([(0, [])] : Schedule).map Prod.snd).flatten ∧
    run_bundle [] exInputs ≠ run_bundle [(0, [])] exInputs :=
  ⟨rfl, by decide⟩

/-- C8: execution of one instruction fails exactly when the instruction is a
`LOAD` whose input key is absent from the environment, or a register it
reads (including a `STORE`'s `dest`) has never been written, or its
operation kind has no execution semantics; in every other case it returns an
updated register file extending the old one by the written binding. -/
theorem execute_instruction_failure_iff (i : Instruction) (regs inputs : RegFile) :
    (execute_instruction i regs inputs = none ↔
      (i.op = "LOAD" ∧ inputs.lookup i.src1 = none) ∨
      (i.op = "STORE" ∧ regs.lookup i.dest = none) ∨
      ((i.op = "ADD" ∨ i.op = "SUB" ∨ i.op = "MUL") ∧
        (regs.lookup i.src1 = none ∨ regs.lookup i.src2 = none)) ∨
      (i.op = "MOVE" ∧ regs.lookup i.src1 = none) ∨
      (i.op ≠ "LOAD" ∧ i.op ≠ "STORE" ∧ i.op ≠ "ADD" ∧ i.op ≠ "SUB" ∧
        i.op ≠ "MUL" ∧ i.op ≠ "MOVE")) ∧
    (∀ regs2, execute_instruction i regs inputs = some regs2 →
      ∃ k v, regs2 = (k, v) :: regs) := by
  constructor
  · unfold execute_instruction
    split_ifs with hL hS hA hSb hM hMv
    · cases h : inputs.lookup i.src1 <;> simp_all
    · cases h : regs.lookup i.dest <;> simp_all
    · cases h1 : regs.lookup i.src1 <;> cases h2 : regs.lookup i.src2 <;> simp_all
    · cases h1 : regs.lookup i.src1 <;> cases h2 : regs.lookup i.src2 <;> simp_all
    · cases h1 : regs.lookup i.src1 <;> cases h2 : regs.lookup i.src2 <;> simp_all
    · cases h : regs.lookup i.src1 <;> simp_all
    · simp_all
  · intro regs2 hr
    unfold execute_instruction at hr
    split_ifs at hr <;> (try split at hr) <;>
      first
        | exact Option.noConfusion hr
        | exact ⟨_, _, (Option.some.inj hr).symm⟩

theorem execute_instruction_failure_iff_witness :
    execute_instruction ⟨"FROB", none, none, none, 0⟩ [] [] = none :=
  (execute_instruction_failure_iff ⟨"FROB", none, none, none, 0⟩ [] []).1.mpr
    (Or.inr (Or.inr (Or.inr (Or.inr (by decide)))))

/-- The intra-bundle hazard relation is symmetric. -/
theorem hazard_symm {x y : Instruction} (h : Hazard x y) : Hazard y x := by
  rcases h with ⟨h1, h2⟩ | ⟨h1, h2⟩ | ⟨h1, h2⟩
  · exact Or.inl ⟨h2 ▸ h1, h2.symm⟩
  · exact Or.inr (Or.inr ⟨h1, h2⟩)
  · exact Or.inr (Or.inl ⟨h1, h2⟩)

/-- The scheduler's Boolean conflict test decides exactly the hazard relation. -/
theorem conflict_eq_true_iff (i b : Instruction) : conflict i b = true ↔ Hazard i b := by
  simp [conflict, Hazard, Bool.or_eq_true, Bool.and_eq_true, beq_iff_eq]
  tauto

/-- The inner pass never grows the bundle beyond the width `W`. -/
theorem packBundle_fst_length (a : AvailTable) (C W : Nat) :
    ∀ pool bundle, bundle.length ≤ W →
      (packBundle a C W bundle pool).1.length ≤ W := by
  intro pool
  induction pool with
  | nil => intro bundle hb; simpa [packBundle] using hb
  | cons i rest ih =>
    intro bundle hb
    by_cases hw : W ≤ bundle.length
    · simpa [packBundle, hw] using hb
    · by_cases h1 : (get_registers i).2.any (notReady a C)
      · simpa [packBundle, hw, h1] using ih bundle hb
      · by_cases h2 : bundle.any (conflict i)
        · simpa [packBundle, hw, h1, h2] using ih bundle hb
        · have hlen : (bundle ++ [i]).length ≤ W := by
            simp only [List.length_append, List.length_singleton]
            omega
          simpa [packBundle, hw, h1, h2] using ih (bundle ++ [i]) hlen

/-- The inner pass preserves pairwise hazard-freedom of the bundle: an
instruction is admitted only after the conflict test clears it against every
instruction already in the bundle. -/
theorem packBundle_fst_pairwise (a : AvailTable) (C W : Nat) :
    ∀ pool bundle, List.Pairwise (fun x y => ¬ Hazard x y) bundle →
      List.Pairwise (fun x y => ¬ Hazard x y) (packBundle a C W bundle pool).1 := by
  intro pool
  induction pool with
  | nil => intro bundle hb; simpa [packBundle] using hb
  | cons i rest ih =>
    intro bundle hb
    by_cases hw : W ≤ bundle.length
    · simpa [packBundle, hw] using hb
    · by_cases h1 : (get_registers i).2.any (notReady a C)
      · simpa [packBundle, hw, h1] using ih bundle hb
      · by_cases h2 : bundle.any (conflict i)
        · simpa [packBundle, hw, h1, h2] using ih bundle hb
        · have hnc : ∀ b ∈ bundle, ¬ Hazard i b := by
            intro b hbm hhz
            exact h2 (List.any_eq_true.mpr ⟨b, hbm, (conflict_eq_true_iff i b).mpr hhz⟩)
          have happ : List.Pairwise (fun x y => ¬ Hazard x y) (bundle ++ [i]) := by
            refine List.pairwise_append.mpr ⟨hb, by simp, ?_⟩
            intro x hx y hy
            simp only [List.mem_singleton] at hy
            subst hy
            exact fun hz => hnc x hx (hazard_symm hz)
          simpa [packBundle, hw, h1, h2] using ih (bundle ++ [i]) happ

/-- Every bundle of a returned schedule respects the width and is pairwise
hazard-free, at every loop state. -/
theorem scheduleLoop_bundles (W : Nat) :
    ∀ fuel a pool C bs, scheduleLoop W fuel a pool C = some bs →
      ∀ cb ∈ bs, cb.2.length ≤ W ∧ List.Pairwise (fun x y => ¬ Hazard x y) cb.2 := by
  intro fuel
  induction fuel with
  | zero =>
    intro a pool C bs h
    cases pool with
    | nil =>
      obtain rfl : ([] : Schedule) = bs := Option.some.inj h
      intro cb hcb
      cases hcb
    | cons p ps => exact Option.noConfusion h
  | succ n ih =>
    intro a pool C bs h
    cases pool with
    | nil =>
      obtain rfl : ([] : Schedule) = bs := Option.some.inj h
      intro cb hcb
      cases hcb
    | cons p ps =>
      simp only [scheduleLoop] at h
      split at h
      · exact ih _ _ _ _ h
      · split at h
        · exact Option.noConfusion h
        · rename_i bs2 hrec
          obtain rfl := Option.some.inj h
          intro cb hcb
          rcases List.mem_cons.mp hcb with rfl | hmem
          · exact ⟨packBundle_fst_length a C W (p :: ps) [] (by simp),
              packBundle_fst_pairwise a C W (p :: ps) [] (by simp)⟩
          · exact ih _ _ _ _ hrec cb hmem

/-- C1: every bundle of a schedule returned by `schedule_instructions`
contains at most `W` instructions and no intra-bundle WAW, RAW, or WAR
hazard: no two bundle-mates write the same destination, and no bundle-mate
reads a register written by another (in either direction). -/
theorem schedule_bundle_width_and_hazard_free (prog : List Instruction)
    (W fuel : Nat) (bs : Schedule) (cb : Nat × List Instruction)
    (h : schedule_instructions prog W fuel = some bs) (hcb : cb ∈ bs) :
    cb.2.length ≤ W ∧ List.Pairwise (fun x y => ¬ Hazard x y) cb.2 :=
  scheduleLoop_bundles W fuel (initAvail prog) prog 0 bs h cb hcb

theorem schedule_bundle_width_and_hazard_free_witness :
    ([⟨"ADD", some "R3", some "R1", some "R2", 1⟩,
      ⟨"LOAD", some "R4", some "input2", none, 16⟩] : List Instruction).length ≤ 2 ∧
    List.Pairwise (fun x y => ¬ Hazard x y)
      [⟨"ADD", some "R3", some "R1", some "R2", 1⟩,
       ⟨"LOAD", some "R4", some "input2", none, 16⟩] :=
  schedule_bundle_width_and_hazard_free exProgram 2 100 exSchedule2
    (4, [⟨"ADD", some "R3", some "R1", some "R2", 1⟩,
         ⟨"LOAD", some "R4", some "input2", none, 16⟩])
    rfl (by decide)

/-- The replay loop inlined in `run_program` is the same function as the
replay loop of `run_bundle` (the source duplicates the code verbatim). -/
theorem runProgBundles_eq_runBundles (inputs : RegFile) :
    ∀ bs regs cur, runProgBundles inputs bs regs cur = runBundles inputs bs regs cur := by
  intro bs
  induction bs with
  | nil => intro regs cur; rfl
  | cons cb rest ih =>
    intro regs cur
    obtain ⟨cycle, bundle⟩ := cb
    simp only [runProgBundles, runBundles]
    cases hex : execBundle inputs bundle regs with
    | none => simp [hex]
    | some regs2 =>
      cases hmax : listMax (bundle.map compute_latency) with
      | none => simp [hex, hmax]
      | some lat => simp [hex, hmax, ih]

/-- C5: `run_program` returns exactly what scheduling followed by a replay of
the precomputed schedule with `run_bundle` returns. -/
theorem run_program_eq_schedule_then_run_bundle (prog : List Instruction)
    (inputs : RegFile) (W fuel : Nat) (bs : Schedule)
    (h : schedule_instructions prog W fuel = some bs) :
    run_program prog inputs W fuel = run_bundle bs inputs := by
  unfold run_program run_bundle
  rw [h]
  show (match runProgBundles inputs bs [] 0 with
        | none => none
        | some regs => some (List.lookup (some "OUTPUT") regs)) =
       (match runBundles inputs bs [] 0 with
        | none => none
        | some regs => some (List.lookup (some "OUTPUT") regs))
  rw [runProgBundles_eq_runBundles]

theorem run_program_eq_schedule_then_run_bundle_witness :
    run_program exProgram exInputs 2 100 = run_bundle exSchedule2 exInputs :=
  run_program_eq_schedule_then_run_bundle exProgram exInputs 2 100 exSchedule2 rfl

/-- Executing a concatenation of instruction lists threads the register file
through the first list and then the second. -/
theorem execBundle_append (inputs : RegFile) :
    ∀ xs ys regs, execBundle inputs (xs ++ ys) regs =
      match execBundle inputs xs regs with
      | none => none
      | some r => execBundle inputs ys r := by
  intro xs
  induction xs with
  | nil => intro ys regs; rfl
  | cons i rest ih =>
    intro ys regs
    simp only [List.cons_append, execBundle]
    cases hx : execute_instruction i regs inputs with
    | none => rfl
    | some r2 => exact ih ys r2

/-- `listMax` never fails on a non-empty list. -/
theorem listMax_cons_isSome (x : Nat) (l : List Nat) : ∃ m, listMax (x :: l) = some m := by
  cases hl : listMax l with
  | none => exact ⟨x, by simp [listMax, hl]⟩
  | some m => exact ⟨max x m, by simp [listMax, hl]⟩

/-- As long as every bundle is non-empty, replaying a schedule is the same as
executing its flattened instruction sequence: the cycle bookkeeping never
influences the register file. -/
theorem runBundles_flatten (inputs : RegFile) :
    ∀ bs regs cur, (∀ b ∈ bs, b.2 ≠ []) →
      runBundles inputs bs regs cur =
        execBundle inputs ((bs.map Prod.snd).flatten) regs := by
  intro bs
  induction bs with
  | nil => intro regs cur h; rfl
  | cons cb rest ih =>
    intro regs cur h
    obtain ⟨cycle, bundle⟩ := cb
    have hb : bundle ≠ [] := h (cycle, bundle) (List.mem_cons_self _ _)
    simp only [runBundles, List.map_cons, List.flatten_cons]
    rw [execBundle_append]
    cases hex : execBundle inputs bundle regs with
    | none => simp [hex]
    | some regs2 =>
      have hmax : ∃ m, listMax (bundle.map compute_latency) = some m := by
        cases bundle with
        | nil => exact absurd rfl hb
        | cons x xs => exact listMax_cons_isSome _ _
      obtain ⟨m, hm⟩ := hmax
      simp only [hex, hm]
      exact ih regs2 _ (fun b hb2 => h b (List.mem_cons_of_mem _ hb2))

/-- C10 (amended): for schedules all of whose bundles are non-empty,
`run_bundle` depends only on the flattened instruction sequence and the
inputs: start cycles and the grouping into bundles are irrelevant. -/
theorem run_bundle_depends_only_on_flattened (bs1 bs2 : Schedule) (inputs : RegFile)
    (h1 : ∀ b ∈ bs1, b.2 ≠ []) (h2 : ∀ b ∈ bs2, b.2 ≠ [])
    (hf : (bs1.map Prod.snd).flatten = (bs2.map Prod.snd).flatten) :
    run_bundle bs1 inputs = run_bundle bs2 inputs := by
  unfold run_bundle
  rw [runBundles_flatten inputs bs1 [] 0 h1, runBundles_flatten inputs bs2 [] 0 h2, hf]

theorem run_bundle_depends_only_on_flattened_witness :
    run_bundle [(0, [⟨"LOAD", some "R1", some "input0", none, 16⟩]),
                (4, [⟨"STORE", some "R1", none, none, 1⟩])] exInputs =
    run_bundle [(9, [⟨"LOAD", some "R1", some "input0", none, 16⟩,
                     ⟨"STORE", some "R1", none, none, 1⟩])] exInputs :=
  run_bundle_depends_only_on_flattened _ _ exInputs (by decide) (by decide) rfl

/-- Record the destination of an instruction as an availability-table key
(the cycle value is irrelevant for resolvability, so 0 is used). -/
def addDest (a : AvailTable) (i : Instruction) : AvailTable :=
  match (get_registers i).1 with
  | none => a
  | some d => (some d, 0) :: a

/-- `orderOK a τ` checks that, walking `τ` left to right, every source
register of every instruction is either a key of `a` or the destination of
an earlier instruction of `τ`. -/
def orderOK (a : AvailTable) : List Instruction → Bool
  | [] => true
  | i :: rest =>
    (get_registers i).2.all (fun r => (a.lookup r).isSome) && orderOK (addDest a i) rest

/-- A program is acyclic and fully resolvable if some permutation of it is a
topological order with respect to the initial availability table: every
source is external or produced earlier in the order. -/
def Resolvable (prog : List Instruction) : Prop :=
  ∃ τ, prog.Perm τ ∧ orderOK (initAvail prog) τ = true

theorem lookup_cons_isSome {β : Type} (k r : Option String) (v : β)
    (l : List (Option String × β)) :
    (((k, v) :: l).lookup r).isSome = ((r == k) || (l.lookup r).isSome) := by
  simp only [List.lookup]
  cases h : r == k <;> simp

theorem mem_of_lookup_some {β : Type} :
    ∀ (l : List (Option String × β)) (r : Option String) (v : β),
      l.lookup r = some v → (r, v) ∈ l := by
  intro l
  induction l with
  | nil => intro r v h; cases h
  | cons p rest ih =>
    intro r v h
    obtain ⟨k, w⟩ := p
    cases hk : r == k
    · simp only [List.lookup, hk] at h
      exact List.mem_cons_of_mem _ (ih r v h)
    · simp only [List.lookup, hk] at h
      obtain rfl : w = v := Option.some.inj h
      obtain rfl : r = k := eq_of_beq hk
      exact List.mem_cons_self _ _

theorem addDest_lookup (a : AvailTable) (i : Instruction) (r : Option String) :
    ((addDest a i).lookup r).isSome = true ↔
      ((a.lookup r).isSome = true ∨
        ((get_registers i).1.isSome ∧ r = (get_registers i).1)) := by
  unfold addDest
  cases hg : (get_registers i).1 with
  | none => simp
  | some d =>
    rw [lookup_cons_isSome]
    simp [Bool.or_eq_true, beq_iff_eq]
    tauto

theorem orderOK_mono :
    ∀ (τ : List Instruction) (a a2 : AvailTable),
      (∀ r, (a.lookup r).isSome = true → (a2.lookup r).isSome = true) →
      orderOK a τ = true → orderOK a2 τ = true := by
  intro τ
  induction τ with
  | nil => intro a a2 hk h; rfl
  | cons i rest ih =>
    intro a a2 hk h
    simp only [orderOK, Bool.and_eq_true, List.all_eq_true] at h ⊢
    refine ⟨fun r hr => hk r (h.1 r hr), ?_⟩
    refine ih (addDest a i) (addDest a2 i) ?_ h.2
    intro r hr
    rcases (addDest_lookup a i r).mp hr with h1 | h2
    · exact (addDest_lookup a2 i r).mpr (Or.inl (hk r h1))
    · exact (addDest_lookup a2 i r).mpr (Or.inr h2)

theorem orderOK_erase (x : Instruction) :
    ∀ (τ : List Instruction) (a : AvailTable),
      orderOK a τ = true → x ∈ τ → orderOK (addDest a x) (τ.erase x) = true := by
  intro τ
  induction τ with
  | nil => intro a h hx; cases hx
  | cons y rest ih =>
    intro a h hx
    simp only [orderOK, Bool.and_eq_true, List.all_eq_true] at h
    by_cases hxy : y = x
    · subst hxy
      rw [List.erase_cons_head]
      exact h.2
    · have hxr : x ∈ rest := by
        rcases List.mem_cons.mp hx with h1 | h1
        · exact absurd h1.symm hxy
        · exact h1
      rw [List.erase_cons_tail (by simpa using hxy)]
      simp only [orderOK, Bool.and_eq_true, List.all_eq_true]
      constructor
      · intro r hr
        exact (addDest_lookup a x r).mpr (Or.inl (h.1 r hr))
      · have hrec := ih (addDest a y) h.2 hxr
        refine orderOK_mono _ _ _ ?_ hrec
        intro r hr
        rcases (addDest_lookup _ x r).mp hr with h1 | h2
        · rcases (addDest_lookup a y r).mp h1 with g1 | g2
          · exact (addDest_lookup _ y r).mpr (Or.inl ((addDest_lookup a x r).mpr (Or.inl g1)))
          · exact (addDest_lookup _ y r).mpr (Or.inr g2)
        · exact (addDest_lookup _ y r).mpr (Or.inl ((addDest_lookup a x r).mpr (Or.inr h2)))

theorem orderOK_extract :
    ∀ (B rest : List Instruction) (a : AvailTable) (τ : List Instruction),
      orderOK a τ = true → (B ++ rest).Perm τ →
      ∃ τ2, rest.Perm τ2 ∧ orderOK (B.foldl addDest a) τ2 = true := by
  intro B
  induction B with
  | nil => intro rest a τ h hp; exact ⟨τ, by simpa using hp, h⟩
  | cons x B2 ih =>
    intro rest a τ h hp
    simp only [List.cons_append] at hp
    have hx : x ∈ τ := hp.subset (List.mem_cons_self _ _)
    have h1 := orderOK_erase x τ a h hx
    have hp2 : (B2 ++ rest).Perm (τ.erase x) :=
      (hp.trans (List.perm_cons_erase hx)).cons_inv
    obtain ⟨τ2, hp3, h3⟩ := ih rest (addDest a x) (τ.erase x) h1 hp2
    exact ⟨τ2, hp3, by simpa [List.foldl_cons] using h3⟩

/-- The inner pass only redistributes the pool: the admitted bundle together
with the leftover pool is a permutation of what it started from. -/
theorem packBundle_perm (a : AvailTable) (C W : Nat) :
    ∀ pool bundle,
      ((packBundle a C W bundle pool).1 ++ (packBundle a C W bundle pool).2).Perm
        (bundle ++ pool) := by
  intro pool
  induction pool with
  | nil => intro bundle; simp [packBundle]
  | cons i rest ih =>
    intro bundle
    by_cases hw : W ≤ bundle.length
    · simp [packBundle, hw]
    · by_cases h1 : (get_registers i).2.any (notReady a C)
      · have hih := ih bundle
        have : ((packBundle a C W bundle rest).1 ++
            i :: (packBundle a C W bundle rest).2).Perm (bundle ++ i :: rest) :=
          (List.perm_middle.trans (hih.cons i)).trans List.perm_middle.symm
        simpa [packBundle, hw, h1] using this
      · by_cases h2 : bundle.any (conflict i)
        · have hih := ih bundle
          have : ((packBundle a C W bundle rest).1 ++
              i :: (packBundle a C W bundle rest).2).Perm (bundle ++ i :: rest) :=
            (List.perm_middle.trans (hih.cons i)).trans List.perm_middle.symm
          simpa [packBundle, hw, h1, h2] using this
        · have hih := ih (bundle ++ [i])
          simp only [List.append_assoc, List.singleton_append] at hih
          simpa [packBundle, hw, h1, h2] using hih

theorem init_le_foldl_max : ∀ (l : List Nat) (b : Nat), b ≤ l.foldl max b := by
  intro l
  induction l with
  | nil => intro b; exact le_refl b
  | cons x xs ih => intro b; exact le_trans (le_max_left b x) (ih (max b x))

theorem mem_le_foldl_max : ∀ (l : List Nat) (b x : Nat), x ∈ l → x ≤ l.foldl max b := by
  intro l
  induction l with
  | nil => intro b x hx; cases hx
  | cons y ys ih =>
    intro b x hx
    rcases List.mem_cons.mp hx with rfl | hx
    · exact le_trans (le_max_right b x) (init_le_foldl_max ys (max b x))
    · exact ih (max b y) x hx

/-- Folding `addDest` preserves pointwise equality of key presence. -/
theorem foldl_addDest_keys :
    ∀ (B : List Instruction) (a a2 : AvailTable),
      (∀ r, (a.lookup r).isSome = (a2.lookup r).isSome) →
      ∀ r, ((B.foldl addDest a).lookup r).isSome =
        ((B.foldl addDest a2).lookup r).isSome := by
  intro B
  induction B with
  | nil => intro a a2 h r; exact h r
  | cons i B2 ih =>
    intro a a2 h r
    simp only [List.foldl_cons]
    refine ih (addDest a i) (addDest a2 i) ?_ r
    intro r2
    unfold addDest
    cases hg : (get_registers i).1 with
    | none => exact h r2
    | some d => rw [lookup_cons_isSome, lookup_cons_isSome, h r2]

/-- `updateAvail` installs exactly the keys that folding `addDest` installs
(only the stored cycle values differ). -/
theorem updateAvail_keys (C : Nat) :
    ∀ (B : List Instruction) (a : AvailTable) (r : Option String),
      ((updateAvail C a B).lookup r).isSome =
        ((B.foldl addDest a).lookup r).isSome := by
  intro B
  induction B with
  | nil => intro a r; rfl
  | cons i B2 ih =>
    intro a r
    have e1 : updateAvail C a (i :: B2) =
        updateAvail C
          (match (get_registers i).1 with
           | none => a
           | some d => (some d, C + compute_latency i) :: a) B2 := rfl
    rw [e1, List.foldl_cons]
    rw [ih]
    refine foldl_addDest_keys B2 _ _ ?_ r
    intro r2
    unfold addDest
    cases hg : (get_registers i).1 with
    | none => rfl
    | some d => rw [lookup_cons_isSome, lookup_cons_isSome]

/-- A register with a bounded availability entry is ready at any cycle at or
past the bound. -/
theorem ready_of_head (a : AvailTable) (C : Nat) (t : Instruction)
    (τ2 : List Instruction) (h : orderOK a (t :: τ2) = true)
    (hb : ∀ q ∈ a, q.2 ≤ C) :
    (get_registers t).2.any (notReady a C) = false := by
  simp only [orderOK, Bool.and_eq_true, List.all_eq_true] at h
  rw [List.any_eq_false]
  intro r hr
  have hsome := h.1 r hr
  unfold notReady
  cases hl : a.lookup r with
  | none => rw [hl] at hsome; cases hsome
  | some v =>
    have hle : v ≤ C := hb (r, v) (mem_of_lookup_some a r v hl)
    simp only []
    simp [Nat.not_lt.mpr hle]

/-- The inner pass never discards a non-empty bundle accumulator. -/
theorem packBundle_fst_ne_nil (a : AvailTable) (C W : Nat) :
    ∀ pool bundle, bundle ≠ [] → (packBundle a C W bundle pool).1 ≠ [] := by
  intro pool
  induction pool with
  | nil => intro bundle hb; simpa [packBundle] using hb
  | cons i rest ih =>
    intro bundle hb
    by_cases hw : W ≤ bundle.length
    · simpa [packBundle, hw] using hb
    · by_cases h1 : (get_registers i).2.any (notReady a C)
      · simpa [packBundle, hw, h1] using ih bundle hb
      · by_cases h2 : bundle.any (conflict i)
        · simpa [packBundle, hw, h1, h2] using ih bundle hb
        · have hne : bundle ++ [i] ≠ [] := by simp
          simpa [packBundle, hw, h1, h2] using ih (bundle ++ [i]) hne

/-- If the width is positive and some pool instruction is ready, the inner
pass admits at least one instruction. -/
theorem packBundle_progress (a : AvailTable) (C W : Nat) (hW : 1 ≤ W) :
    ∀ pool t, t ∈ pool → (get_registers t).2.any (notReady a C) = false →
      (packBundle a C W [] pool).1 ≠ [] := by
  intro pool
  induction pool with
  | nil => intro t ht; intro hready; cases ht
  | cons p ps ih =>
    intro t ht hready
    have hw : ¬ W ≤ ([] : List Instruction).length := by simp; omega
    have hw0 : ¬ W = 0 := by omega
    by_cases h1 : (get_registers p).2.any (notReady a C)
    · have htp : t ≠ p := by
        intro he
        subst he
        rw [hready] at h1
        exact Bool.noConfusion h1
      have ht2 : t ∈ ps := by
        rcases List.mem_cons.mp ht with h | h
        · exact absurd h htp
        · exact h
      simpa [packBundle, hw, hw0, h1] using ih t ht2 hready
    · have hne : ([] : List Instruction) ++ [p] ≠ [] := by simp
      have := packBundle_fst_ne_nil a C W ps ([] ++ [p]) hne
      simpa [packBundle, hw, hw0, h1] using this

/-- The scheduler loop terminates, for positive width, on any pool some
permutation of which is in topological order relative to the availability
table: enough stall cycles make the head of that order ready, a ready
instruction forces a non-empty bundle, and a non-empty bundle shrinks the
pool. -/
theorem scheduleLoop_total (W : Nat) (hW : 1 ≤ W) :
    ∀ n pool, pool.length ≤ n → ∀ a C τ, pool.Perm τ → orderOK a τ = true →
      ∃ fuel bs, scheduleLoop W fuel a pool C = some bs := by
  intro n
  induction n with
  | zero =>
    intro pool hlen a C τ hp ho
    have hnil : pool = [] := List.length_eq_zero.mp (Nat.le_zero.mp hlen)
    subst hnil
    exact ⟨0, [], rfl⟩
  | succ n ih =>
    intro pool hlen a C τ hp ho
    cases pool with
    | nil => exact ⟨0, [], rfl⟩
    | cons p ps =>
      have prod : ∀ C2, (packBundle a C2 W [] (p :: ps)).1 ≠ [] →
          ∃ fuel bs, scheduleLoop W fuel a (p :: ps) C2 = some bs := by
        intro C2 hne
        have hperm2 : ((packBundle a C2 W [] (p :: ps)).1 ++
            (packBundle a C2 W [] (p :: ps)).2).Perm (p :: ps) := by
          simpa using packBundle_perm a C2 W (p :: ps) []
        have hpτ : ((packBundle a C2 W [] (p :: ps)).1 ++
            (packBundle a C2 W [] (p :: ps)).2).Perm τ := hperm2.trans hp
        obtain ⟨τ2, hp2, ho2⟩ := orderOK_extract (packBundle a C2 W [] (p :: ps)).1
          (packBundle a C2 W [] (p :: ps)).2 a τ ho hpτ
        have ho3 : orderOK (updateAvail C2 a (packBundle a C2 W [] (p :: ps)).1) τ2
            = true := by
          refine orderOK_mono τ2 _ _ ?_ ho2
          intro r hr
          rw [updateAvail_keys]
          exact hr
        have hlen2 : (packBundle a C2 W [] (p :: ps)).2.length ≤ n := by
          have hl := hperm2.length_eq
          simp only [List.length_append, List.length_cons] at hl
          have hne2 : 1 ≤ (packBundle a C2 W [] (p :: ps)).1.length := by
            cases hq : (packBundle a C2 W [] (p :: ps)).1 with
            | nil => exact absurd hq hne
            | cons _ _ => simp [hq]
          simp only [List.length_cons] at hlen
          omega
        obtain ⟨fuel, bs, hf⟩ := ih (packBundle a C2 W [] (p :: ps)).2 hlen2
          (updateAvail C2 a (packBundle a C2 W [] (p :: ps)).1)
          (C2 + bundleLatency (packBundle a C2 W [] (p :: ps)).1) τ2 hp2 ho3
        refine ⟨fuel + 1, (C2, (packBundle a C2 W [] (p :: ps)).1) :: bs, ?_⟩
        simp only [scheduleLoop]
        rw [if_neg (by simpa [List.isEmpty_iff] using hne)]
        rw [hf]
      have stall : ∀ k C2, (∀ q ∈ a, q.2 ≤ C2 + k) →
          ∃ fuel bs, scheduleLoop W fuel a (p :: ps) C2 = some bs := by
        intro k
        induction k with
        | zero =>
          intro C2 hbound
          apply prod C2
          cases τ with
          | nil =>
            have := hp.length_eq
            simp at this
          | cons t τ2 =>
            have ht : t ∈ p :: ps := (hp.mem_iff).mpr (List.mem_cons_self _ _)
            have hready := ready_of_head a C2 t τ2 ho (by simpa using hbound)
            exact packBundle_progress a C2 W hW (p :: ps) t ht hready
        | succ k ihk =>
          intro C2 hbound
          by_cases hne : (packBundle a C2 W [] (p :: ps)).1 = []
          · obtain ⟨fuel, bs, hf⟩ := ihk (C2 + 1)
              (by intro q hq; have := hbound q hq; omega)
            refine ⟨fuel + 1, bs, ?_⟩
            simp only [scheduleLoop]
            rw [if_pos (by simp [List.isEmpty_iff, hne])]
            exact hf
          · exact prod C2 hne
      exact stall ((a.map Prod.snd).foldl max 0) C
        (fun q hq => le_trans
          (mem_le_foldl_max (a.map Prod.snd) 0 q.2 (List.mem_map_of_mem _ hq))
          (Nat.le_add_left _ _))

/-- Whatever schedule the loop returns covers exactly the pool it started
from: the flattened bundles are a permutation of the pool. -/
theorem scheduleLoop_perm (W : Nat) :
    ∀ fuel a pool C bs, scheduleLoop W fuel a pool C = some bs →
      ((bs.map Prod.snd).flatten).Perm pool := by
  intro fuel
  induction fuel with
  | zero =>
    intro a pool C bs h
    cases pool with
    | nil =>
      obtain rfl := Option.some.inj h
      simp
    | cons => exact Option.noConfusion h
  | succ n ih =>
    intro a pool C bs h
    cases pool with
    | nil =>
      obtain rfl := Option.some.inj h
      simp
    | cons p ps =>
      simp only [scheduleLoop] at h
      split at h
      · exact ih _ _ _ _ h
      · split at h
        · exact Option.noConfusion h
        · rename_i bs2 hrec
          obtain rfl := Option.some.inj h
          simp only [List.map_cons, List.flatten_cons]
          have h1 := ih _ _ _ _ hrec
          have h2 : ((packBundle a C W [] (p :: ps)).1 ++
              (packBundle a C W [] (p :: ps)).2).Perm (p :: ps) := by
            simpa using packBundle_perm a C W (p :: ps) []
          exact (List.Perm.append_left _ h1).trans h2

/-- The start cycles of a returned schedule are at least the entry cycle and
monotonically non-decreasing. -/
theorem scheduleLoop_chain (W : Nat) :
    ∀ fuel a pool C bs, scheduleLoop W fuel a pool C = some bs →
      (∀ x ∈ bs.map Prod.fst, C ≤ x) ∧
      List.Chain' (fun c1 c2 => c1 ≤ c2) (bs.map Prod.fst) := by
  intro fuel
  induction fuel with
  | zero =>
    intro a pool C bs h
    cases pool with
    | nil =>
      obtain rfl := Option.some.inj h
      exact ⟨by simp, by simp⟩
    | cons => exact Option.noConfusion h
  | succ n ih =>
    intro a pool C bs h
    cases pool with
    | nil =>
      obtain rfl := Option.some.inj h
      exact ⟨by simp, by simp⟩
    | cons p ps =>
      simp only [scheduleLoop] at h
      split at h
      · obtain ⟨h1, h2⟩ := ih _ _ _ _ h
        exact ⟨fun x hx => le_trans (Nat.le_succ C) (h1 x hx), h2⟩
      · split at h
        · exact Option.noConfusion h
        · rename_i bs2 hrec
          obtain rfl := Option.some.inj h
          obtain ⟨h1, h2⟩ := ih _ _ _ _ hrec
          constructor
          · intro x hx
            simp only [List.map_cons, List.mem_cons] at hx
            rcases hx with rfl | hx
            · exact le_refl _
            · exact le_trans (Nat.le_add_right _ _) (h1 x hx)
          · simp only [List.map_cons]
            cases hbs : bs2.map Prod.fst with
            | nil => simp
            | cons y ys =>
              rw [hbs] at h2
              refine List.chain'_cons.mpr ⟨?_, h2⟩
              have hy : y ∈ bs2.map Prod.fst := by rw [hbs]; exact List.mem_cons_self _ _
              exact le_trans (Nat.le_add_right _ _) (h1 y hy)

/-- C2 (amended): for every acyclic, fully resolvable program and every
positive bundle width, the scheduler terminates (some fuel suffices), the
flattened schedule is a permutation of the program (every instruction
appears in exactly one bundle), and the bundle start cycles are
monotonically non-decreasing. -/
theorem schedule_total_of_resolvable (prog : List Instruction) (W : Nat)
    (hW : 1 ≤ W) (hres : Resolvable prog) :
    ∃ fuel bs, schedule_instructions prog W fuel = some bs ∧
      ((bs.map Prod.snd).flatten).Perm prog ∧
      List.Chain' (fun c1 c2 => c1 ≤ c2) (bs.map Prod.fst) := by
  obtain ⟨τ, hp, ho⟩ := hres
  obtain ⟨fuel, bs, hf⟩ :=
    scheduleLoop_total W hW prog.length prog le_rfl (initAvail prog) 0 τ hp ho
  exact ⟨fuel, bs, hf, scheduleLoop_perm W fuel _ _ _ _ hf,
    (scheduleLoop_chain W fuel _ _ _ _ hf).2⟩

theorem schedule_total_of_resolvable_witness :
    (1 ≤ 2 ∧ Resolvable exProgram) ∧
    ∃ fuel bs, schedule_instructions exProgram 2 fuel = some bs ∧
      ((bs.map Prod.snd).flatten).Perm exProgram ∧
      List.Chain' (fun c1 c2 => c1 ≤ c2) (bs.map Prod.fst) :=
  ⟨⟨by decide, ⟨exProgram, List.Perm.refl _, by decide⟩⟩,
   schedule_total_of_resolvable exProgram 2 (by decide)
     ⟨exProgram, List.Perm.refl _, by decide⟩⟩
